import Mathlib

/-!
Verification of the DCLoadUtils endurance-test core (`src/endurance_test.py`)
against its natural-language specification.

The Python code is shallowly embedded:

* the voltage-cutoff safety logic of `EnduranceTestController.test_loop`
  (lines 854-886) becomes a step function `cutoffStep` on an explicit
  `CutoffState`, driven by per-batch `Eval` records (wall time, measured
  voltage, measurement age);
* `safe_set_current` becomes a recursion over an oracle list of per-attempt
  outcomes; `safe_measure` becomes a state-passing function over the
  measurement cache; the command-spacing discipline of
  `safe_write`/`safe_query`/`safe_measure`/`safe_set_current` becomes a
  send-time semantics `opSends`;
* the orchestrator skeleton of `test_loop` becomes `batchStep`/`runLoop`
  over per-batch oracle records;
* `interpolate_current_window` becomes `interpolate` over `List ℝ`
  (floats are modelled as reals; `np.sqrt` forces the real field here,
  so that section is noncomputable).

Real-valued wall-clock quantities that the Python reads from `time.time()` /
`datetime.now()` are modelled as rationals supplied by the environment;
instrument latency is modelled as zero, and the fixed `time.sleep` delays of
the code appear as the corresponding rational offsets.
-/

namespace DCLoad

/-! ## Safety monitor (`test_loop` lines 854-886)

Per batch the loop computes `measurement_age` from
`last_measurement_success_time` (`none` when no measurement has ever
succeeded), then:

* fresh (`age ≤ measurement_timeout_threshold`) and
  `voltage ≤ voltage_cutoff`: start the buffer
  (`voltage_below_cutoff_time = now`) if unset, else break (trip) once
  `now - since ≥ voltage_cutoff_buffer`;
* fresh and `voltage > voltage_cutoff`: clear `voltage_below_cutoff_time`;
* stale with a known age (`age > threshold`): clear
  `voltage_below_cutoff_time`;
* no age at all (`last_measurement_success_time is None`): leave the state
  untouched.

`tripped` models the `break`; the loop never runs the check again after it,
so `tripped` is absorbing here. -/

/-- One safety evaluation: the wall time `datetime.now()` at the check, the
voltage returned by `safe_measure`, and the measurement age
`now - last_measurement_success_time` (`none` when no success ever). -/
structure Eval where
  now : ℚ
  voltage : ℚ
  age : Option ℚ
  deriving DecidableEq, Repr

/-- The cutoff detector state: `ok` is `voltage_below_cutoff_time is None`,
`belowPending since` is `voltage_below_cutoff_time = since`, `tripped` is the
`break` out of the test loop. -/
inductive CutoffState where
  | ok : CutoffState
  | belowPending (since : ℚ) : CutoffState
  | tripped : CutoffState
  deriving DecidableEq, Repr

/-- Freshness test of the code: an age exists and is at most
`measurement_timeout_threshold`. -/
def isFresh (thresh : ℚ) (e : Eval) : Bool :=
  match e.age with
  | some a => a ≤ thresh
  | none => false

/-- The voltage-cutoff check of `test_loop` lines 854-886, as a transition
on `CutoffState`. -/
def cutoffStep (cutoff buffer thresh : ℚ) (s : CutoffState) (e : Eval) : CutoffState :=
  match s, e.age with
  | .tripped, _ => .tripped
  | .ok, none => .ok
  | .belowPending since, none => .belowPending since
  | .ok, some a =>
    if a ≤ thresh then
      if e.voltage ≤ cutoff then .belowPending e.now else .ok
    else .ok
  | .belowPending since, some a =>
    if a ≤ thresh then
      if e.voltage ≤ cutoff then
        if buffer ≤ e.now - since then .tripped else .belowPending since
      else .ok
    else .ok

/-- The monitor state after a sequence of evaluations, starting from `ok`
(the state `start_test` resets to). -/
def runMonitor (cutoff buffer thresh : ℚ) (es : List Eval) : CutoffState :=
  es.foldl (cutoffStep cutoff buffer thresh) .ok

/-- A fresh below-cutoff evaluation. -/
def freshBelow (cutoff thresh : ℚ) (e : Eval) : Prop :=
  isFresh thresh e = true ∧ e.voltage ≤ cutoff

instance (cutoff thresh : ℚ) (e : Eval) : Decidable (freshBelow cutoff thresh e) := by
  unfold freshBelow; infer_instance

/-- Measurement ages in the program derive from
`last_measurement_success_time`, which is set once and never cleared: once
some evaluation carries an age, every later one does. -/
def AgesConsistent (es : List Eval) : Prop :=
  es.Pairwise (fun a b => a.age ≠ none → b.age ≠ none)

/-- A contiguous run of fresh below-cutoff evaluations spanning at least
`buffer` of wall time. -/
def trippingSpan (cutoff buffer thresh : ℚ) (es : List Eval) : Prop :=
  ∃ pre m0 mrest post, es = pre ++ (m0 :: mrest) ++ post ∧
    freshBelow cutoff thresh m0 ∧
    (∀ e ∈ mrest, freshBelow cutoff thresh e) ∧
    buffer ≤ (mrest.getLastD m0).now - m0.now

/-- A pending countdown whose fresh below-cutoff run extends to the end of
the trace: the invariant behind `trippingSpan`. -/
def pendingSpan (cutoff thresh : ℚ) (es : List Eval) (s : ℚ) : Prop :=
  ∃ pre m0 mrest, es = pre ++ m0 :: mrest ∧
    freshBelow cutoff thresh m0 ∧ m0.now = s ∧
    (∀ e ∈ mrest, freshBelow cutoff thresh e)

theorem cutoffStep_tripped (cutoff buffer thresh : ℚ) (e : Eval) :
    cutoffStep cutoff buffer thresh .tripped e = .tripped := rfl

theorem foldl_cutoffStep_tripped (cutoff buffer thresh : ℚ) (es : List Eval) :
    es.foldl (cutoffStep cutoff buffer thresh) .tripped = .tripped := by
  induction es with
  | nil => rfl
  | cons e es ih => simpa [cutoffStep] using ih

/-- Step facts: a fresh below-cutoff reading starts the countdown from `ok`. -/
theorem cutoffStep_ok_below (cutoff buffer thresh : ℚ) (e : Eval)
    (h : freshBelow cutoff thresh e) :
    cutoffStep cutoff buffer thresh .ok e = .belowPending e.now := by
  obtain ⟨hf, hv⟩ := h
  unfold isFresh at hf
  cases hage : e.age with
  | none => simp [hage] at hf
  | some a =>
    rw [hage] at hf
    simp only [decide_eq_true_eq] at hf
    simp [cutoffStep, hage, hf, hv]

/-- Step facts: a fresh below-cutoff reading at `now - since ≥ buffer`
trips. -/
theorem cutoffStep_pending_trips (cutoff buffer thresh : ℚ) (since : ℚ) (e : Eval)
    (h : freshBelow cutoff thresh e) (hb : buffer ≤ e.now - since) :
    cutoffStep cutoff buffer thresh (.belowPending since) e = .tripped := by
  obtain ⟨hf, hv⟩ := h
  unfold isFresh at hf
  cases hage : e.age with
  | none => simp [hage] at hf
  | some a =>
    rw [hage] at hf
    simp only [decide_eq_true_eq] at hf
    simp [cutoffStep, hage, hf, hv, hb]

/-- Step facts: a fresh below-cutoff reading inside the buffer keeps the
countdown start unchanged. -/
theorem cutoffStep_pending_keeps (cutoff buffer thresh : ℚ) (since : ℚ) (e : Eval)
    (h : freshBelow cutoff thresh e) (hb : e.now - since < buffer) :
    cutoffStep cutoff buffer thresh (.belowPending since) e = .belowPending since := by
  obtain ⟨hf, hv⟩ := h
  unfold isFresh at hf
  cases hage : e.age with
  | none => simp [hage] at hf
  | some a =>
    rw [hage] at hf
    simp only [decide_eq_true_eq] at hf
    simp [cutoffStep, hage, hf, hv, not_le.mpr hb]

/-- Step facts: a fresh above-cutoff reading resets any non-tripped state to
`ok`. -/
theorem cutoffStep_fresh_above (cutoff buffer thresh : ℚ) (s : CutoffState) (e : Eval)
    (hs : s ≠ .tripped) (hf : isFresh thresh e = true) (hv : cutoff < e.voltage) :
    cutoffStep cutoff buffer thresh s e = .ok := by
  unfold isFresh at hf
  cases hage : e.age with
  | none => simp [hage] at hf
  | some a =>
    rw [hage] at hf
    simp only [decide_eq_true_eq] at hf
    cases s with
    | ok => simp [cutoffStep, hage, hf, not_le.mpr hv]
    | belowPending since => simp [cutoffStep, hage, hf, not_le.mpr hv]
    | tripped => exact absurd rfl hs

/-- Step facts: a stale reading with a known age resets a pending countdown
to `ok`. -/
theorem cutoffStep_stale_resets (cutoff buffer thresh : ℚ) (since a : ℚ) (e : Eval)
    (hage : e.age = some a) (hstale : thresh < a) :
    cutoffStep cutoff buffer thresh (.belowPending since) e = .ok := by
  simp [cutoffStep, hage, not_le.mpr hstale]

/-- Step facts: a stale reading never leaves `ok`. -/
theorem cutoffStep_ok_stale (cutoff buffer thresh : ℚ) (e : Eval)
    (hf : isFresh thresh e = false) :
    cutoffStep cutoff buffer thresh .ok e = .ok := by
  unfold isFresh at hf
  cases hage : e.age with
  | none => simp [cutoffStep, hage]
  | some a =>
    rw [hage] at hf
    simp only [decide_eq_false_iff_not, not_le] at hf
    simp [cutoffStep, hage, not_le.mpr hf]

theorem getLastD_mem {α : Type _} : ∀ (l : List α) (d : α), l ≠ [] → l.getLastD d ∈ l
  | [a], _, _ => by simp [List.getLastD_cons]
  | a :: b :: t, d, _ => by
    have h := getLastD_mem (b :: t) a (by simp)
    rw [List.getLastD_cons]
    exact List.mem_cons_of_mem a h

theorem getLastD_concat {α : Type _} (l : List α) (d e : α) : (l ++ [e]).getLastD d = e := by
  induction l generalizing d with
  | nil => rfl
  | cons a t ih => rw [List.cons_append, List.getLastD_cons]; exact ih a

theorem trippingSpan_append (cutoff buffer thresh : ℚ) (es l : List Eval)
    (h : trippingSpan cutoff buffer thresh es) :
    trippingSpan cutoff buffer thresh (es ++ l) := by
  obtain ⟨pre, m0, mrest, post, hsplit, hm0, hmrest, hlen⟩ := h
  exact ⟨pre, m0, mrest, post ++ l, by rw [hsplit]; simp, hm0, hmrest, hlen⟩

/-- Completing a pending countdown: from `belowPending since`, a run of fresh
below-cutoff evaluations containing one at distance at least `buffer` from
`since` ends tripped. -/
theorem foldl_pending_trips (cutoff buffer thresh since : ℚ) (l : List Eval)
    (hall : ∀ e ∈ l, freshBelow cutoff thresh e)
    (hex : ∃ e ∈ l, buffer ≤ e.now - since) :
    l.foldl (cutoffStep cutoff buffer thresh) (.belowPending since) = .tripped := by
  induction l with
  | nil => simp at hex
  | cons e t ih =>
    have he : freshBelow cutoff thresh e := hall e (List.mem_cons_self e t)
    by_cases h3 : buffer ≤ e.now - since
    · rw [List.foldl_cons, cutoffStep_pending_trips cutoff buffer thresh since e he h3]
      exact foldl_cutoffStep_tripped cutoff buffer thresh t
    · rw [List.foldl_cons,
        cutoffStep_pending_keeps cutoff buffer thresh since e he (not_le.mp h3)]
      refine ih (fun x hx => hall x (List.mem_cons_of_mem e hx)) ?_
      obtain ⟨w, hw, hwb⟩ := hex
      rcases List.mem_cons.mp hw with rfl | hw'
      · exact absurd hwb h3
      · exact ⟨w, hw', hwb⟩

/-- The structural invariant of the monitor: a pending state means its fresh
below-cutoff run extends to the end of the trace, and a tripped state means a
fresh below-cutoff run spanned at least `buffer`. Needs `AgesConsistent`
because `last_measurement_success_time` is never cleared in the program. -/
theorem runMonitor_spans (cutoff buffer thresh : ℚ) :
    ∀ es : List Eval, AgesConsistent es →
      ((∀ s, runMonitor cutoff buffer thresh es = .belowPending s →
          pendingSpan cutoff thresh es s) ∧
        (runMonitor cutoff buffer thresh es = .tripped →
          trippingSpan cutoff buffer thresh es)) := by
  intro es
  induction es using List.reverseRecOn with
  | nil =>
    intro _
    refine ⟨fun s h => ?_, fun h => ?_⟩ <;> simp [runMonitor] at h
  | append_singleton es e ih =>
    intro hcons
    have hconsL : AgesConsistent es := hcons.sublist (List.sublist_append_left es [e])
    have hrel : ∀ a ∈ es, a.age ≠ none → e.age ≠ none := by
      intro a ha
      exact (List.pairwise_append.mp hcons).2.2 a ha e (List.mem_singleton_self e)
    have hrun : runMonitor cutoff buffer thresh (es ++ [e]) =
        cutoffStep cutoff buffer thresh (runMonitor cutoff buffer thresh es) e := by
      simp [runMonitor, List.foldl_append]
    rcases hstate : runMonitor cutoff buffer thresh es with _ | s0 | _
    · -- previous state ok: only a fresh below-cutoff reading changes anything
      rw [hstate] at hrun
      cases hage : e.age with
      | none =>
        refine ⟨fun s h => ?_, fun h => ?_⟩ <;>
          simp [hrun, cutoffStep, hage] at h
      | some a =>
        by_cases h1 : a ≤ thresh
        · by_cases h2 : e.voltage ≤ cutoff
          · have hres : runMonitor cutoff buffer thresh (es ++ [e]) = .belowPending e.now := by
              simp [hrun, cutoffStep, hage, h1, h2]
            refine ⟨fun s h => ?_, fun h => ?_⟩
            · rw [hres] at h
              cases h
              exact ⟨es, e, [], rfl, ⟨by simp [isFresh, hage, h1], h2⟩, rfl, by simp⟩
            · rw [hres] at h; cases h
          · refine ⟨fun s h => ?_, fun h => ?_⟩ <;>
              simp [hrun, cutoffStep, hage, h1, h2] at h
        · refine ⟨fun s h => ?_, fun h => ?_⟩ <;>
            simp [hrun, cutoffStep, hage, h1] at h
    · -- previous state belowPending s0: use the pending span of the prefix
      rw [hstate] at hrun
      obtain ⟨pre, m0, mrest, hsplit, hm0, hm0now, hmrest⟩ := (ih hconsL).1 s0 hstate
      have hm0mem : m0 ∈ es := by rw [hsplit]; exact List.mem_append_right pre (List.mem_cons_self m0 mrest)
      have hm0age : m0.age ≠ none := by
        obtain ⟨hf, _⟩ := hm0
        unfold isFresh at hf
        cases h : m0.age with
        | none => rw [h] at hf; cases hf
        | some _ => simp
      have heage : e.age ≠ none := hrel m0 hm0mem hm0age
      cases hage : e.age with
      | none => exact absurd hage heage
      | some a =>
        by_cases h1 : a ≤ thresh
        · by_cases h2 : e.voltage ≤ cutoff
          · have hfb : freshBelow cutoff thresh e := ⟨by simp [isFresh, hage, h1], h2⟩
            by_cases h3 : buffer ≤ e.now - s0
            · have hres : runMonitor cutoff buffer thresh (es ++ [e]) = .tripped := by
                simp [hrun, cutoffStep, hage, h1, h2, h3]
              refine ⟨fun s h => ?_, fun _ => ?_⟩
              · rw [hres] at h; cases h
              · refine ⟨pre, m0, mrest ++ [e], [], by rw [hsplit]; simp, hm0, ?_, ?_⟩
                · intro x hx
                  rcases List.mem_append.mp hx with hx' | hx'
                  · exact hmrest x hx'
                  · rw [List.mem_singleton.mp hx']; exact hfb
                · rw [getLastD_concat, hm0now]; exact h3
            · have hres : runMonitor cutoff buffer thresh (es ++ [e]) = .belowPending s0 := by
                simp [hrun, cutoffStep, hage, h1, h2, h3]
              refine ⟨fun s h => ?_, fun h => ?_⟩
              · rw [hres] at h
                cases h
                refine ⟨pre, m0, mrest ++ [e], by rw [hsplit]; simp, hm0, hm0now, ?_⟩
                intro x hx
                rcases List.mem_append.mp hx with hx' | hx'
                · exact hmrest x hx'
                · rw [List.mem_singleton.mp hx']; exact hfb
              · rw [hres] at h; cases h
          · refine ⟨fun s h => ?_, fun h => ?_⟩ <;>
              simp [hrun, cutoffStep, hage, h1, h2] at h
        · refine ⟨fun s h => ?_, fun h => ?_⟩ <;>
            simp [hrun, cutoffStep, hage, h1] at h
    · -- previous state tripped: absorbing
      rw [hstate, cutoffStep_tripped] at hrun
      refine ⟨fun s h => ?_, fun _ => ?_⟩
      · rw [hrun] at h; cases h
      · exact trippingSpan_append cutoff buffer thresh es [e] ((ih hconsL).2 hstate)

/-- Completeness: under monotone wall time, any fresh below-cutoff run
spanning at least `buffer` makes the monitor trip. -/
theorem runMonitor_trips_of_span (cutoff buffer thresh : ℚ) (es : List Eval)
    (hbuf : 0 < buffer)
    (hcons : AgesConsistent es)
    (hmono : es.Pairwise (fun a b => a.now ≤ b.now))
    (hspan : trippingSpan cutoff buffer thresh es) :
    runMonitor cutoff buffer thresh es = .tripped := by
  obtain ⟨pre, m0, mrest, post, hsplit, hm0, hmrest, hlen⟩ := hspan
  have hconsPre : AgesConsistent pre := by
    refine hcons.sublist ?_
    rw [hsplit, List.append_assoc]
    exact List.sublist_append_left pre ((m0 :: mrest) ++ post)
  have hrun : runMonitor cutoff buffer thresh es =
      (((m0 :: mrest) ++ post).foldl (cutoffStep cutoff buffer thresh)
        (runMonitor cutoff buffer thresh pre)) := by
    rw [hsplit]
    simp [runMonitor, List.foldl_append]
  have hlastmem : (mrest.getLastD m0) ∈ m0 :: mrest := by
    by_cases hm : mrest = []
    · subst hm; simp
    · exact List.mem_cons_of_mem m0 (getLastD_mem mrest m0 hm)
  have htail : post.foldl (cutoffStep cutoff buffer thresh) CutoffState.tripped =
      CutoffState.tripped := foldl_cutoffStep_tripped cutoff buffer thresh post
  rcases hstate : runMonitor cutoff buffer thresh pre with _ | s0 | _
  · -- from ok, m0 starts the countdown at m0.now
    have hmrest_ne : mrest ≠ [] := by
      intro hnil
      rw [hnil] at hlen
      simp only [List.getLastD_nil] at hlen
      linarith
    rw [hrun, hstate, List.cons_append, List.foldl_cons,
      cutoffStep_ok_below cutoff buffer thresh m0 hm0, List.foldl_append,
      foldl_pending_trips cutoff buffer thresh m0.now mrest hmrest
        ⟨mrest.getLastD m0, getLastD_mem mrest m0 hmrest_ne, hlen⟩]
    exact htail
  · -- from a pending countdown started at s0 ≤ m0.now
    obtain ⟨pre', m0', mrest', hsplit', hm0', hm0now', _⟩ :=
      (runMonitor_spans cutoff buffer thresh pre hconsPre).1 s0 hstate
    have hm0'mem : m0' ∈ pre := by
      rw [hsplit']; exact List.mem_append_right pre' (List.mem_cons_self m0' mrest')
    have hs0le : s0 ≤ m0.now := by
      rw [← hm0now']
      have hmono' : (pre ++ ((m0 :: mrest) ++ post)).Pairwise (fun a b => a.now ≤ b.now) := by
        rw [← List.append_assoc, ← hsplit]; exact hmono
      exact (List.pairwise_append.mp hmono').2.2 m0' hm0'mem m0
        (List.mem_append_left post (List.mem_cons_self m0 mrest))
    have hexlast : buffer ≤ (mrest.getLastD m0).now - s0 := by
      have : (mrest.getLastD m0).now - m0.now ≤ (mrest.getLastD m0).now - s0 := by
        linarith
      linarith
    rw [hrun, hstate, List.foldl_append,
      foldl_pending_trips cutoff buffer thresh s0 (m0 :: mrest)
        (fun x hx => by
          rcases List.mem_cons.mp hx with rfl | hx'
          · exact hm0
          · exact hmrest x hx')
        ⟨mrest.getLastD m0, hlastmem, hexlast⟩]
    exact htail
  · -- already tripped before the span
    rw [hrun, hstate, List.foldl_append, foldl_cutoffStep_tripped]
    exact htail

/-- A trace of only stale evaluations keeps the monitor in `ok`. -/
theorem runMonitor_stale_stays_ok (cutoff buffer thresh : ℚ) (es : List Eval)
    (h : ∀ e ∈ es, isFresh thresh e = false) :
    runMonitor cutoff buffer thresh es = .ok := by
  unfold runMonitor
  induction es with
  | nil => rfl
  | cons e t ih =>
    rw [List.foldl_cons, cutoffStep_ok_stale cutoff buffer thresh e
      (h e (List.mem_cons_self e t))]
    exact ih (fun x hx => h x (List.mem_cons_of_mem e hx))

/-- Inversion: the only transition that installs a new countdown start is a
fresh below-cutoff evaluation, and the start it installs is that
evaluation's wall time. -/
theorem cutoffStep_pending_inv (cutoff buffer thresh : ℚ) (s : CutoffState) (e : Eval)
    (t : ℚ) (h : cutoffStep cutoff buffer thresh s e = .belowPending t)
    (hne : s ≠ .belowPending t) :
    freshBelow cutoff thresh e ∧ t = e.now := by
  cases s with
  | tripped => simp [cutoffStep] at h
  | ok =>
    cases hage : e.age with
    | none => simp [cutoffStep, hage] at h
    | some a =>
      by_cases h1 : a ≤ thresh
      · by_cases h2 : e.voltage ≤ cutoff
        · simp [cutoffStep, hage, h1, h2] at h
          exact ⟨⟨by simp [isFresh, hage, h1], h2⟩, h.symm⟩
        · simp [cutoffStep, hage, h1, h2] at h
      · simp [cutoffStep, hage, h1] at h
  | belowPending since =>
    cases hage : e.age with
    | none =>
      simp [cutoffStep, hage] at h
      exact absurd (by rw [h]) hne
    | some a =>
      by_cases h1 : a ≤ thresh
      · by_cases h2 : e.voltage ≤ cutoff
        · by_cases h3 : buffer ≤ e.now - since
          · simp [cutoffStep, hage, h1, h2, h3] at h
          · simp [cutoffStep, hage, h1, h2, h3] at h
            exact absurd (by rw [h]) hne
        · simp [cutoffStep, hage, h1, h2] at h
      · simp [cutoffStep, hage, h1] at h

/-- C1: The SafetyMonitor reaches `TRIPPED` iff fresh measurements report
voltage at or below the cutoff continuously for at least the buffer
duration: the first fresh below-cutoff evaluation moves `OK` to
`BELOW_PENDING(now)`; a later fresh below-cutoff evaluation with
`now - since ≥ buffer` trips; one inside the buffer leaves the countdown
start unchanged; any single fresh above-cutoff evaluation resets to `OK`;
and over any trace with monotone wall time and consistent measurement ages,
the monitor ends tripped iff the trace contains a contiguous run of fresh
below-cutoff evaluations spanning at least the buffer duration. -/
theorem safetyMonitor_trip_characterization (cutoff buffer thresh : ℚ)
    (hbuf : 0 < buffer) :
    (∀ e, freshBelow cutoff thresh e →
        cutoffStep cutoff buffer thresh .ok e = .belowPending e.now) ∧
    (∀ since e, freshBelow cutoff thresh e → buffer ≤ e.now - since →
        cutoffStep cutoff buffer thresh (.belowPending since) e = .tripped) ∧
    (∀ since e, freshBelow cutoff thresh e → e.now - since < buffer →
        cutoffStep cutoff buffer thresh (.belowPending since) e = .belowPending since) ∧
    (∀ s e, s ≠ .tripped → isFresh thresh e = true → cutoff < e.voltage →
        cutoffStep cutoff buffer thresh s e = .ok) ∧
    (∀ es : List Eval, AgesConsistent es →
        es.Pairwise (fun a b => a.now ≤ b.now) →
        (runMonitor cutoff buffer thresh es = .tripped ↔
          trippingSpan cutoff buffer thresh es)) := by
  refine ⟨cutoffStep_ok_below cutoff buffer thresh,
    cutoffStep_pending_trips cutoff buffer thresh,
    cutoffStep_pending_keeps cutoff buffer thresh,
    cutoffStep_fresh_above cutoff buffer thresh,
    fun es hcons hmono => ⟨fun h => (runMonitor_spans cutoff buffer thresh es hcons).2 h,
      fun h => runMonitor_trips_of_span cutoff buffer thresh es hbuf hcons hmono h⟩⟩

/-- Witness for C1: with cutoff 3 V, buffer 1 s, staleness threshold 10 s,
the fresh below-cutoff trace at wall times 0 and 2 trips. -/
theorem safetyMonitor_trip_characterization_witness :
    runMonitor 3 1 10 [⟨0, 2, some 0⟩, ⟨2, 2, some 0⟩] = .tripped :=
  ((safetyMonitor_trip_characterization 3 1 10 (by norm_num)).2.2.2.2
      [⟨0, 2, some 0⟩, ⟨2, 2, some 0⟩] (by unfold AgesConsistent; decide) (by decide)).mpr
    ⟨[], ⟨0, 2, some 0⟩, [⟨2, 2, some 0⟩], [], rfl, by decide, by decide,
      by norm_num [List.getLastD_cons]⟩

/-- C2: From a sequence of only stale measurements the SafetyMonitor
never reaches `TRIPPED` (it stays `OK`); a stale evaluation received while
in `BELOW_PENDING` resets the state to `OK` (the measurement-age consistency
of the program — `last_measurement_success_time` is never cleared — makes an
age-less evaluation impossible there); and a countdown start is installed
only by a fresh below-cutoff evaluation. -/
theorem safetyMonitor_stale_never_trips (cutoff buffer thresh : ℚ) :
    (∀ es : List Eval, (∀ e ∈ es, isFresh thresh e = false) →
        runMonitor cutoff buffer thresh es = .ok ∧
        runMonitor cutoff buffer thresh es ≠ .tripped) ∧
    (∀ (es : List Eval) (e : Eval) (s0 : ℚ), AgesConsistent (es ++ [e]) →
        runMonitor cutoff buffer thresh es = .belowPending s0 →
        isFresh thresh e = false →
        runMonitor cutoff buffer thresh (es ++ [e]) = .ok) ∧
    (∀ (s : CutoffState) (e : Eval) (t : ℚ),
        cutoffStep cutoff buffer thresh s e = .belowPending t →
        s ≠ .belowPending t →
        freshBelow cutoff thresh e ∧ t = e.now) := by
  refine ⟨fun es h => ?_, fun es e s0 hcons hpend hstale => ?_,
    cutoffStep_pending_inv cutoff buffer thresh⟩
  · have := runMonitor_stale_stays_ok cutoff buffer thresh es h
    exact ⟨this, by rw [this]; intro hc; cases hc⟩
  · have hconsL : AgesConsistent es := hcons.sublist (List.sublist_append_left es [e])
    obtain ⟨pre, m0, mrest, hsplit, hm0, _, _⟩ :=
      (runMonitor_spans cutoff buffer thresh es hconsL).1 s0 hpend
    have hm0mem : m0 ∈ es := by
      rw [hsplit]; exact List.mem_append_right pre (List.mem_cons_self m0 mrest)
    have hm0age : m0.age ≠ none := by
      obtain ⟨hf, _⟩ := hm0
      unfold isFresh at hf
      cases h : m0.age with
      | none => rw [h] at hf; cases hf
      | some _ => simp
    have heage : e.age ≠ none :=
      (List.pairwise_append.mp hcons).2.2 m0 hm0mem e (List.mem_singleton_self e) hm0age
    cases hage : e.age with
    | none => exact absurd hage heage
    | some a =>
      have hstale' : thresh < a := by
        unfold isFresh at hstale
        rw [hage] at hstale
        simpa using hstale
      rw [runMonitor, List.foldl_append]
      rw [runMonitor] at hpend
      rw [hpend]
      simpa using cutoffStep_stale_resets cutoff buffer thresh s0 a e hage hstale'

/-- Witness for C2: a stale reading (age 20 s > 10 s threshold) arriving in
`BELOW_PENDING` resets the monitor to `OK`. -/
theorem safetyMonitor_stale_never_trips_witness :
    runMonitor 3 1 10 [⟨0, 2, some 0⟩, ⟨5, 2, some 20⟩] = .ok :=
  (safetyMonitor_stale_never_trips 3 1 10).2.1 [⟨0, 2, some 0⟩] ⟨5, 2, some 20⟩ 0
    (by unfold AgesConsistent; decide) (by decide) (by decide)

/-! ## Instrument channel: `safe_set_current` (lines 440-496)

`safe_set_current` makes up to 5 attempts (`max_retries` for plain
writes/queries is 3). Each attempt: write the setpoint (a transport
exception here counts as a failed attempt and retries); query
`:SOUR:CURR:LEV?` back and parse it (an exception anywhere in that
verification block returns `True` optimistically); accept when the readback
is within `max(0.01, abs(value * 0.01))`; otherwise log and move to the next
attempt. After the 5th attempt the function returns `False`.

Attempts are driven by an oracle list of per-attempt outcomes. -/

/-- Outcome of one write+verify attempt: the setpoint write raised, the
verification query raised (or its reply failed to parse), or the
verification produced the numeric readback `v`. -/
inductive SetAttempt where
  | writeFail : SetAttempt
  | verifyError : SetAttempt
  | readback (v : ℚ) : SetAttempt
  deriving DecidableEq, Repr

/-- `self.max_retries` (line 43), the plain write/query attempt budget. -/
def max_retries : Nat := 3

/-- The attempt budget of `safe_set_current` (`for attempt in range(5)`). -/
def setCurrentAttempts : Nat := 5

/-- `tolerance = max(0.01, abs(current_value * 0.01))` (line 473). -/
def setTolerance (value : ℚ) : ℚ := max (1/100) |value * (1/100)|

/-- An attempt that makes `safe_set_current` return `True` on the spot:
an in-tolerance readback, or a verification error (optimistic soft
failure, line 483). -/
def goodAttempt (value : ℚ) : SetAttempt → Prop
  | .writeFail => False
  | .verifyError => True
  | .readback v => |v - value| ≤ setTolerance value

instance (value : ℚ) (a : SetAttempt) : Decidable (goodAttempt value a) := by
  unfold goodAttempt; cases a <;> infer_instance

/-- The attempt loop of `safe_set_current`, consuming fuel (remaining
attempts) and the outcome oracle. -/
def setCurrentGo (value : ℚ) : Nat → List SetAttempt → Bool
  | 0, _ => false
  | _ + 1, [] => false
  | n + 1, a :: rest =>
    match a with
    | .writeFail => setCurrentGo value n rest
    | .verifyError => true
    | .readback v =>
      if |v - value| ≤ setTolerance value then true else setCurrentGo value n rest

/-- `safe_set_current(value)` given the oracle of attempt outcomes. -/
def safe_set_current (value : ℚ) (attempts : List SetAttempt) : Bool :=
  setCurrentGo value setCurrentAttempts attempts

theorem setCurrentGo_true_iff (value : ℚ) :
    ∀ (n : Nat) (attempts : List SetAttempt),
      (setCurrentGo value n attempts = true ↔
        ∃ i, ∃ h : i < attempts.length, i < n ∧ goodAttempt value (attempts.get ⟨i, h⟩)) := by
  intro n
  induction n with
  | zero =>
    intro attempts
    simp [setCurrentGo]
  | succ n ih =>
    intro attempts
    cases attempts with
    | nil => simp [setCurrentGo]
    | cons a rest =>
      constructor
      · intro h
        cases ha : a with
        | writeFail =>
          rw [ha] at h
          simp only [setCurrentGo] at h
          obtain ⟨i, hi, hin, hgood⟩ := (ih rest).mp h
          exact ⟨i + 1, by simpa using Nat.succ_lt_succ hi,
            Nat.succ_lt_succ hin, by simpa using hgood⟩
        | verifyError =>
          exact ⟨0, by simp, Nat.succ_pos n, by simp [ha, goodAttempt]⟩
        | readback v =>
          rw [ha] at h
          simp only [setCurrentGo] at h
          by_cases htol : |v - value| ≤ setTolerance value
          · exact ⟨0, by simp, Nat.succ_pos n, by simp [ha, goodAttempt, htol]⟩
          · rw [if_neg htol] at h
            obtain ⟨i, hi, hin, hgood⟩ := (ih rest).mp h
            exact ⟨i + 1, by simpa using Nat.succ_lt_succ hi,
              Nat.succ_lt_succ hin, by simpa using hgood⟩
      · rintro ⟨i, hi, hin, hgood⟩
        cases i with
        | zero =>
          simp only [List.get] at hgood
          cases ha : a with
          | writeFail => rw [ha] at hgood; cases hgood
          | verifyError => simp [setCurrentGo, ha]
          | readback v =>
            rw [ha] at hgood
            have htol : |v - value| ≤ setTolerance value := hgood
            simp [setCurrentGo, htol]
        | succ i =>
          have hrec : setCurrentGo value n rest = true :=
            (ih rest).mpr ⟨i, by simpa using hi, Nat.lt_of_succ_lt_succ hin,
              by simpa using hgood⟩
          cases ha : a with
          | writeFail => simp [setCurrentGo, hrec]
          | verifyError => simp [setCurrentGo]
          | readback v =>
            by_cases htol : |v - value| ≤ setTolerance value <;>
              simp [setCurrentGo, htol, hrec]

/-- C6: `safe_set_current` uses a strictly larger attempt budget (5) than
a plain write (`max_retries = 3`); it returns success exactly when one of
the first five attempt outcomes is accepting — an in-tolerance readback
(within `max(0.01, 1% of the value)`) or a verification-query error, which
is optimistically accepted — and hence returns failure exactly when the
whole budget is exhausted by write failures and out-of-tolerance
readbacks. -/
theorem setCurrentVerified_success_iff :
    max_retries < setCurrentAttempts ∧
    (∀ (value : ℚ) (attempts : List SetAttempt),
      (safe_set_current value attempts = true ↔
        ∃ i, ∃ h : i < attempts.length, i < setCurrentAttempts ∧
          goodAttempt value (attempts.get ⟨i, h⟩))) ∧
    (∀ (value : ℚ) (attempts : List SetAttempt),
      (safe_set_current value attempts = false ↔
        ∀ i, ∀ h : i < attempts.length, i < setCurrentAttempts →
          ¬ goodAttempt value (attempts.get ⟨i, h⟩))) := by
  refine ⟨by norm_num [max_retries, setCurrentAttempts],
    fun value attempts => setCurrentGo_true_iff value setCurrentAttempts attempts,
    fun value attempts => ?_⟩
  have h := setCurrentGo_true_iff value setCurrentAttempts attempts
  constructor
  · intro hf i hlen hbud hgood
    have htrue : safe_set_current value attempts = true := h.mpr ⟨i, hlen, hbud, hgood⟩
    rw [safe_set_current] at htrue
    rw [safe_set_current, htrue] at hf
    cases hf
  · intro hall
    cases hb : safe_set_current value attempts with
    | false => rfl
    | true =>
      obtain ⟨i, hlen, hbud, hgood⟩ := h.mp hb
      exact absurd hgood (hall i hlen hbud)

/-- Witness for C6 (spec scenario 4): write fails on attempts 1-2, the third
attempt's readback equals the request, so `safe_set_current 1` succeeds. -/
theorem setCurrentVerified_success_iff_witness :
    safe_set_current 1 [.writeFail, .writeFail, .readback 1] = true :=
  (setCurrentVerified_success_iff.2.1 1 [.writeFail, .writeFail, .readback 1]).mpr
    ⟨2, by norm_num, by norm_num [setCurrentAttempts],
      show goodAttempt 1 (SetAttempt.readback 1) by
        show |1 - (1:ℚ)| ≤ setTolerance 1
        norm_num [setTolerance]⟩

/-! ## Instrument channel: `safe_measure` (lines 372-438) and the cache

State: `last_valid_voltage` (init 3.7), `last_valid_current` (init 0.0),
`last_measurement_success_time` (init `None`), `last_measurement_time`
(init 0). A poll within `measurement_interval` of the last success returns
the cache. Otherwise voltage then current are queried (up to two attempts
each); a reading that raised on both attempts or failed to parse is `none`.
The overall-5-second timeout path and the disconnected path return the cache
unchanged, like a failed reading. Only when both readings exist and both lie
in `[0, 50]` are the cache, `last_measurement_success_time` and
`last_measurement_time` updated. -/

/-- The measurement cache of the controller. -/
structure MeasState where
  last_valid_voltage : ℚ
  last_valid_current : ℚ
  last_measurement_success_time : Option ℚ
  last_measurement_time : ℚ
  deriving DecidableEq, Repr

/-- The cache as `__init__` leaves it (lines 46-49 and 39). -/
def initMeasState : MeasState :=
  { last_valid_voltage := 3.7
    last_valid_current := 0.0
    last_measurement_success_time := none
    last_measurement_time := 0 }

/-- `self.measurement_interval` (line 40). -/
def measurement_interval : ℚ := 2

/-- One call to `safe_measure` at wall time `now`, with the outcomes of the
voltage and current reads (`none`: both attempts raised or the reply did not
parse; also stands for the overall-timeout and disconnected paths, which
return the cache unchanged). Returns the reported pair and the new state. -/
def safe_measure (s : MeasState) (now : ℚ) (vRead cRead : Option ℚ) :
    (ℚ × ℚ) × MeasState :=
  if now - s.last_measurement_time < measurement_interval then
    ((s.last_valid_voltage, s.last_valid_current), s)
  else
    match vRead, cRead with
    | some v, some c =>
      if 0 ≤ v ∧ v ≤ 50 ∧ 0 ≤ c ∧ c ≤ 50 then
        ((v, c), ⟨v, c, some now, now⟩)
      else
        ((s.last_valid_voltage, s.last_valid_current), s)
    | _, _ => ((s.last_valid_voltage, s.last_valid_current), s)

/-- A whole sequence of polls, threading the cache. -/
def runMeasure (s : MeasState) : List (ℚ × Option ℚ × Option ℚ) → MeasState
  | [] => s
  | (now, vRead, cRead) :: rest => runMeasure (safe_measure s now vRead cRead).2 rest

/-- A poll whose readings cannot update the cache: a missing reading or an
out-of-range value. -/
def readFails (p : ℚ × Option ℚ × Option ℚ) : Prop :=
  match p.2.1, p.2.2 with
  | some v, some c => ¬(0 ≤ v ∧ v ≤ 50 ∧ 0 ≤ c ∧ c ≤ 50)
  | _, _ => True

instance (p : ℚ × Option ℚ × Option ℚ) : Decidable (readFails p) :=
  match p with
  | (_, some v, some c) =>
    (show Decidable ¬(0 ≤ v ∧ v ≤ 50 ∧ 0 ≤ c ∧ c ≤ 50) from inferInstance)
  | (_, some _, none) => isTrue trivial
  | (_, none, some _) => isTrue trivial
  | (_, none, none) => isTrue trivial

theorem safe_measure_fail_frozen (s : MeasState) (now : ℚ) (vRead cRead : Option ℚ)
    (h : readFails (now, vRead, cRead)) :
    safe_measure s now vRead cRead =
      ((s.last_valid_voltage, s.last_valid_current), s) := by
  unfold safe_measure
  by_cases hrate : now - s.last_measurement_time < measurement_interval
  · rw [if_pos hrate]
  · rw [if_neg hrate]
    cases vRead with
    | none => cases cRead <;> rfl
    | some v =>
      cases cRead with
      | none => rfl
      | some c =>
        have h' : ¬(0 ≤ v ∧ v ≤ 50 ∧ 0 ≤ c ∧ c ≤ 50) := h
        show (if 0 ≤ v ∧ v ≤ 50 ∧ 0 ≤ c ∧ c ≤ 50 then
            ((v, c), (⟨v, c, some now, now⟩ : MeasState))
          else ((s.last_valid_voltage, s.last_valid_current), s)) =
            ((s.last_valid_voltage, s.last_valid_current), s)
        exact if_neg h'

/-- C10: The measurement cache starts at the fabricated 3.7 V / 0.0 A
pair with no success timestamp; the cache and its success timestamp change
only on a poll that is not rate-limited and whose voltage and current both
read back in `[0, 50]` (and then the poll reports exactly those fresh
values); a rate-limited poll and any failed or out-of-range poll report the
prior cached pair and leave the state untouched; hence before the first
successful read every poll reports 3.7 V and the success timestamp stays
`none`. -/
theorem measureCache_updated_only_on_success :
    (initMeasState.last_valid_voltage = 3.7 ∧
      initMeasState.last_valid_current = 0 ∧
      initMeasState.last_measurement_success_time = none) ∧
    (∀ (s : MeasState) (now : ℚ) (vRead cRead : Option ℚ),
      (safe_measure s now vRead cRead).2 ≠ s →
        measurement_interval ≤ now - s.last_measurement_time ∧
        ∃ v c, vRead = some v ∧ cRead = some c ∧
          0 ≤ v ∧ v ≤ 50 ∧ 0 ≤ c ∧ c ≤ 50 ∧
          safe_measure s now vRead cRead = ((v, c), ⟨v, c, some now, now⟩)) ∧
    (∀ (s : MeasState) (now : ℚ) (vRead cRead : Option ℚ),
      now - s.last_measurement_time < measurement_interval →
        safe_measure s now vRead cRead =
          ((s.last_valid_voltage, s.last_valid_current), s)) ∧
    (∀ (s : MeasState) (now : ℚ) (vRead cRead : Option ℚ),
      readFails (now, vRead, cRead) →
        safe_measure s now vRead cRead =
          ((s.last_valid_voltage, s.last_valid_current), s)) ∧
    (∀ polls : List (ℚ × Option ℚ × Option ℚ),
      (∀ p ∈ polls, readFails p) →
        runMeasure initMeasState polls = initMeasState) := by
  refine ⟨⟨rfl, by norm_num [initMeasState], rfl⟩, fun s now vRead cRead hne => ?_,
    fun s now vRead cRead hrate => by unfold safe_measure; rw [if_pos hrate],
    safe_measure_fail_frozen, fun polls hall => ?_⟩
  · by_cases hfail : readFails (now, vRead, cRead)
    · exact absurd (congrArg Prod.snd (safe_measure_fail_frozen s now vRead cRead hfail)) hne
    · unfold readFails at hfail
      cases vRead with
      | none => simp at hfail
      | some v =>
        cases cRead with
        | none => simp at hfail
        | some c =>
          simp only [not_not] at hfail
          by_cases hrate : now - s.last_measurement_time < measurement_interval
          · unfold safe_measure at hne
            rw [if_pos hrate] at hne
            exact absurd rfl hne
          · exact ⟨not_lt.mp hrate, v, c, rfl, rfl, hfail.1, hfail.2.1, hfail.2.2.1,
              hfail.2.2.2, by unfold safe_measure; rw [if_neg hrate]; simp [hfail]⟩
  · induction polls with
    | nil => rfl
    | cons p rest ih =>
      rcases p with ⟨now, vRead, cRead⟩
      rw [runMeasure,
        congrArg Prod.snd
          (safe_measure_fail_frozen initMeasState now vRead cRead
            (hall _ (List.mem_cons_self _ rest)))]
      exact ih (fun q hq => hall q (List.mem_cons_of_mem _ hq))

/-- Witness for C10: before any successful poll (here: a parse failure, then
an out-of-range voltage of 99 V) the cache still reports 3.7 V with no
success timestamp. -/
theorem measureCache_updated_only_on_success_witness :
    runMeasure initMeasState [(10, none, some 1), (20, some 99, some 1)] = initMeasState :=
  measureCache_updated_only_on_success.2.2.2.2
    [(10, none, some 1), (20, some 99, some 1)] (by decide)

/-! ## Instrument channel: command spacing

`safe_write` (lines 327-335) and `safe_query` (lines 352-360) wait until
`command_interval` has elapsed since `last_command_time` and then set
`last_command_time` to the send time. `safe_measure` issues
`self.instrument.query(":MEAS:VOLT?")` and `":MEAS:CURR?"` directly (lines
390, 410): no wait on `last_command_time`, and `last_command_time` is not
updated. `safe_set_current` issues `self.instrument.write(command)` and the
verification query directly (lines 462, 469), separated only by the fixed
`time.sleep(0.3)` / `0.2` / `0.1` delays, again without consulting or
updating `last_command_time`.

Send times are modelled with zero instrument latency; the retry loops are
modelled on their success path (one transmission per call). -/

/-- The channel timing state: `last_command_time` and
`last_measurement_time` (both initialised to 0, lines 39-41). -/
structure ChanState where
  last_command_time : ℚ
  last_measurement_time : ℚ
  deriving DecidableEq, Repr

def initChanState : ChanState := ⟨0, 0⟩

/-- `self.command_interval = 0.3` (line 42). -/
def command_interval : ℚ := 3/10

/-- One operation on the shared connection, invoked at wall time `now`. -/
inductive ChanOp where
  | write (now : ℚ)
  | query (now : ℚ)
  | measurePoll (now : ℚ)
  | setCurrent (now : ℚ)
  deriving DecidableEq, Repr

/-- The spacing gate of `safe_write`/`safe_query`: sleep out the remainder
of `command_interval`, transmit, record the send time. -/
def gatedSend (s : ChanState) (now : ℚ) : ℚ × ChanState :=
  if now - s.last_command_time < command_interval then
    (s.last_command_time + command_interval,
      { s with last_command_time := s.last_command_time + command_interval })
  else
    (now, { s with last_command_time := now })

/-- The transmissions one channel operation performs, with the state it
leaves behind. `measurePoll` (success path) sends its two `:MEAS:` queries
ungated and updates only `last_measurement_time`; `setCurrent` (success
path) sends the setpoint write after its fixed 0.3 s sleep and the
verification query 0.3 s later, touching neither timing field. -/
def opSends (s : ChanState) : ChanOp → ChanState × List ℚ
  | .write now => ((gatedSend s now).2, [(gatedSend s now).1])
  | .query now => ((gatedSend s now).2, [(gatedSend s now).1])
  | .measurePoll now =>
    if now - s.last_measurement_time < measurement_interval then (s, [])
    else ({ s with last_measurement_time := now }, [now, now])
  | .setCurrent now => (s, [now + 3/10, now + 6/10])

/-- All transmissions of a sequence of operations, in order. -/
def runChan (s : ChanState) : List ChanOp → ChanState × List ℚ
  | [] => (s, [])
  | op :: rest =>
    ((runChan (opSends s op).1 rest).1,
      (opSends s op).2 ++ (runChan (opSends s op).1 rest).2)

/-- Consecutive transmissions at least `command_interval` apart. -/
def properlySpaced (sends : List ℚ) : Prop :=
  sends.Chain' (fun a b => command_interval ≤ b - a)

instance (sends : List ℚ) : Decidable (properlySpaced sends) := by
  unfold properlySpaced; infer_instance

/-- A plain control write or plain query — the operations routed through
`safe_write`/`safe_query`. -/
def isPlainCmd : ChanOp → Prop
  | .write _ => True
  | .query _ => True
  | .measurePoll _ => False
  | .setCurrent _ => False

theorem gatedSend_spec (s : ChanState) (now : ℚ) :
    command_interval ≤ (gatedSend s now).1 - s.last_command_time ∧
    (gatedSend s now).2.last_command_time = (gatedSend s now).1 := by
  constructor
  · unfold gatedSend
    by_cases h : now - s.last_command_time < command_interval
    · simp only [if_pos h]
      linarith
    · simp only [if_neg h]
      linarith [not_lt.mp h]
  · unfold gatedSend
    by_cases h : now - s.last_command_time < command_interval
    · simp only [if_pos h]
    · simp only [if_neg h]

/-- Write/query-only traces keep consecutive sends spaced and keep
`last_command_time` equal to the latest send. -/
theorem runChan_plain_spaced :
    ∀ (ops : List ChanOp) (s : ChanState), (∀ op ∈ ops, isPlainCmd op) →
      List.Chain' (fun a b => command_interval ≤ b - a)
        (s.last_command_time :: (runChan s ops).2) ∧
      (runChan s ops).1.last_command_time =
        ((runChan s ops).2).getLastD s.last_command_time := by
  intro ops
  induction ops with
  | nil => intro s _; exact ⟨List.chain'_singleton _, rfl⟩
  | cons op rest ih =>
    intro s hplain
    have hop : isPlainCmd op := hplain op (List.mem_cons_self op rest)
    have hrest : ∀ o ∈ rest, isPlainCmd o :=
      fun o ho => hplain o (List.mem_cons_of_mem op ho)
    cases op with
    | measurePoll now => cases hop
    | setCurrent now => cases hop
    | write now =>
      obtain ⟨hgap, hrec⟩ := gatedSend_spec s now
      have hih := ih (gatedSend s now).2 hrest
      constructor
      · show List.Chain' _
          (s.last_command_time :: (gatedSend s now).1 ::
            (runChan (gatedSend s now).2 rest).2)
        rw [List.chain'_cons]
        exact ⟨hgap, by rw [← hrec]; exact hih.1⟩
      · show (runChan (gatedSend s now).2 rest).1.last_command_time =
          ((gatedSend s now).1 :: (runChan (gatedSend s now).2 rest).2).getLastD
            s.last_command_time
        rw [List.getLastD_cons, hih.2, hrec]
    | query now =>
      obtain ⟨hgap, hrec⟩ := gatedSend_spec s now
      have hih := ih (gatedSend s now).2 hrest
      constructor
      · show List.Chain' _
          (s.last_command_time :: (gatedSend s now).1 ::
            (runChan (gatedSend s now).2 rest).2)
        rw [List.chain'_cons]
        exact ⟨hgap, by rw [← hrec]; exact hih.1⟩
      · show (runChan (gatedSend s now).2 rest).1.last_command_time =
          ((gatedSend s now).1 :: (runChan (gatedSend s now).2 rest).2).getLastD
            s.last_command_time
        rw [List.getLastD_cons, hih.2, hrec]

/-- C5 (counterexample): As stated the claim is false: a measurement poll
0.1 s after a plain write transmits its `:MEAS:VOLT?` query only 0.1 s
(< `command_interval` = 0.3 s) after the previous command, and does not
record itself as the latest command (`last_command_time` stays at the
write's send time). -/
theorem channel_spacing_counterexample :
    (runChan initChanState [.write 100, .measurePoll (201/2)]).2 =
        [100, 201/2, 201/2] ∧
      ¬ properlySpaced (runChan initChanState [.write 100, .measurePoll (201/2)]).2 ∧
      (runChan initChanState [.write 100, .measurePoll (201/2)]).1.last_command_time
        = 100 := by
  refine ⟨?_, ?_, ?_⟩ <;>
    norm_num [runChan, opSends, gatedSend, initChanState, command_interval,
      measurement_interval, properlySpaced, List.chain'_cons]

/-- C5 (amended): Only plain control writes (`safe_write`) and plain
queries (`safe_query`) enforce the minimum inter-command spacing and record
themselves as the latest command; over any trace of only such operations,
every transmission waits at least `command_interval` after the previous
recorded command and consecutive transmissions are at least
`command_interval` apart. Measurement polls and verified setpoint writes
bypass the gate (fixed sleeps and a separate measurement interval) and do
not update `last_command_time`. -/
theorem channel_spacing_plain_only :
    (∀ (s : ChanState) (now : ℚ),
      command_interval ≤ (gatedSend s now).1 - s.last_command_time ∧
      (gatedSend s now).2.last_command_time = (gatedSend s now).1) ∧
    (∀ (ops : List ChanOp) (s : ChanState), (∀ op ∈ ops, isPlainCmd op) →
      properlySpaced (runChan s ops).2) ∧
    (∀ (s : ChanState) (now : ℚ),
      measurement_interval ≤ now - s.last_measurement_time →
      (opSends s (.measurePoll now)).1.last_command_time = s.last_command_time) ∧
    (∀ (s : ChanState) (now : ℚ),
      (opSends s (.setCurrent now)).1.last_command_time = s.last_command_time) := by
  refine ⟨gatedSend_spec, fun ops s hplain => ?_, fun s now h => ?_, fun s now => rfl⟩
  · exact ((runChan_plain_spaced ops s hplain).1).tail
  · simp only [opSends]
    rw [if_neg (not_lt.mpr h)]

/-- Witness for the amended C5: two plain writes 0.1 s apart are stretched
to sends 0.3 s apart. -/
theorem channel_spacing_plain_only_witness :
    properlySpaced (runChan initChanState [.write 100, .write (201/2)]).2 :=
  channel_spacing_plain_only.2.1 [.write 100, .write (201/2)] initChanState
    (by intro op hop; fin_cases hop <;> exact trivial)

/-! ## The orchestrator loop (`test_loop`, lines 775-916)

All claim-relevant work happens at the `current_row % 200 == 0` boundaries,
so the loop is modelled one 200-row batch at a time. Per batch the
environment supplies: the stop flag at the batch boundary, the interpolated
target `avg` for the window, the outcome of `safe_set_current`, the outcome
of the `:SOUR:INP ON` write (consulted only if attempted), and the
measurement `Eval` (wall time, voltage, age) feeding the safety check.

Control flow of lines 803-824: when `avg > 0.001` the setpoint is written;
only when `current_row == 0` (the first batch) *and* that write succeeded is
`:SOUR:INP ON` issued, and a failure of that write is the one communication
failure that `break`s the loop. When `avg ≤ 0.001` a zero setpoint is
written and its failure is only logged. Then the safety check of lines
854-886 runs (`cutoffStep`); its trip is the `break` at line 873. -/

/-- The per-batch environment record. -/
structure Batch where
  stop : Bool
  avg : ℚ
  setOk : Bool
  enableOk : Bool
  meas : Eval
  deriving DecidableEq, Repr

/-- Why `test_loop` stopped: all rows consumed; the stop flag; the
`break` on a failed `:SOUR:INP ON` (line 816); the safety-trip `break`
(line 873). -/
inductive ExitReason where
  | completed : ExitReason
  | stopped : ExitReason
  | enableFailed : ExitReason
  | trippedStop : ExitReason
  deriving DecidableEq, Repr

/-- The loop's mutable state at a batch boundary:
`voltage_below_cutoff_time`, whether `:SOUR:INP ON` has been issued, and
whether this is still the first batch (`current_row == 0`). -/
structure LoopState where
  below : Option ℚ
  enabled : Bool
  firstBatch : Bool
  deriving DecidableEq, Repr

def initLoopState : LoopState := ⟨none, false, true⟩

def stateOfBelow : Option ℚ → CutoffState
  | none => .ok
  | some t => .belowPending t

/-- The setpoint/output-enable block, lines 803-824: returns the new
`enabled` flag and an exit reason if the enable write failed. -/
def enableDecision (s : LoopState) (b : Batch) : Bool × Option ExitReason :=
  if b.avg > 1/1000 then
    if s.firstBatch ∧ b.setOk then
      if b.enableOk then (true, none) else (s.enabled, some .enableFailed)
    else (s.enabled, none)
  else (s.enabled, none)

/-- One batch of `test_loop`: stop check, setpoint/enable block, measurement
and safety check. Returns the state at the next batch boundary, or the exit
reason. -/
def batchStep (cutoff buffer thresh : ℚ) (s : LoopState) (b : Batch) :
    LoopState × Option ExitReason :=
  if b.stop then (s, some .stopped)
  else
    match enableDecision s b with
    | (en, some r) => ({ s with enabled := en, firstBatch := false }, some r)
    | (en, none) =>
      match cutoffStep cutoff buffer thresh (stateOfBelow s.below) b.meas with
      | .tripped => ({ s with enabled := en, firstBatch := false }, some .trippedStop)
      | .ok => (⟨none, en, false⟩, none)
      | .belowPending t => (⟨some t, en, false⟩, none)

def runLoopFrom (cutoff buffer thresh : ℚ) (s : LoopState) :
    List Batch → ExitReason × LoopState
  | [] => (.completed, s)
  | b :: rest =>
    match batchStep cutoff buffer thresh s b with
    | (s', none) => runLoopFrom cutoff buffer thresh s' rest
    | (s', some r) => (r, s')

/-- A whole run of `test_loop` over the profile's batches. -/
def runLoop (cutoff buffer thresh : ℚ) (bs : List Batch) : ExitReason × LoopState :=
  runLoopFrom cutoff buffer thresh initLoopState bs

/-- An evaluation that is not fresh-and-below-cutoff leaves `ok` at `ok`. -/
theorem cutoffStep_ok_not_below (cutoff buffer thresh : ℚ) (e : Eval)
    (h : ¬ freshBelow cutoff thresh e) :
    cutoffStep cutoff buffer thresh .ok e = .ok := by
  cases hf : isFresh thresh e with
  | false => exact cutoffStep_ok_stale cutoff buffer thresh e hf
  | true =>
    have hv : cutoff < e.voltage := by
      by_contra hv'
      exact h ⟨hf, not_lt.mp hv'⟩
    exact cutoffStep_fresh_above cutoff buffer thresh .ok e (by intro hh; cases hh) hf hv

/-- With a working enable write, `enableDecision` never exits. -/
theorem enableDecision_ok (s : LoopState) (b : Batch) (h : b.enableOk = true) :
    (enableDecision s b).2 = none := by
  unfold enableDecision
  by_cases h1 : b.avg > 1/1000
  · rw [if_pos h1]
    by_cases h2 : s.firstBatch ∧ b.setOk
    · rw [if_pos h2, h, if_pos rfl]
    · rw [if_neg h2]
  · rw [if_neg h1]

theorem runLoopFrom_benign (cutoff buffer thresh : ℚ) :
    ∀ (bs : List Batch) (s : LoopState), s.below = none →
      (∀ b ∈ bs, b.stop = false ∧ b.enableOk = true ∧
        ¬ freshBelow cutoff thresh b.meas) →
      (runLoopFrom cutoff buffer thresh s bs).1 = .completed := by
  intro bs
  induction bs with
  | nil => intro s _ _; rfl
  | cons b rest ih =>
    intro s hbel hall
    obtain ⟨hstop, hen, hnb⟩ := hall b (List.mem_cons_self b rest)
    have hcut : cutoffStep cutoff buffer thresh (stateOfBelow s.below) b.meas = .ok := by
      rw [hbel]
      exact cutoffStep_ok_not_below cutoff buffer thresh b.meas hnb
    rcases hed : enableDecision s b with ⟨en, o⟩
    have ho : o = none := by
      have h := enableDecision_ok s b hen
      rw [hed] at h
      exact h
    subst ho
    have hstep : batchStep cutoff buffer thresh s b = (⟨none, en, false⟩, none) := by
      unfold batchStep
      rw [if_neg (by simp [hstop]), hed, hcut]
    simp only [runLoopFrom, hstep]
    exact ih ⟨none, en, false⟩ rfl (fun x hx => hall x (List.mem_cons_of_mem b hx))

theorem runLoopFrom_no_enableFailed (cutoff buffer thresh : ℚ) :
    ∀ (bs : List Batch) (s : LoopState), (∀ b ∈ bs, b.enableOk = true) →
      (runLoopFrom cutoff buffer thresh s bs).1 ≠ .enableFailed := by
  intro bs
  induction bs with
  | nil => intro s _ h; cases h
  | cons b rest ih =>
    intro s hall
    have hen := hall b (List.mem_cons_self b rest)
    rcases hed : enableDecision s b with ⟨en, o⟩
    have ho : o = none := by
      have h := enableDecision_ok s b hen
      rw [hed] at h
      exact h
    subst ho
    by_cases hstop : b.stop = true
    · have hstep : batchStep cutoff buffer thresh s b = (s, some .stopped) := by
        unfold batchStep
        rw [if_pos hstop]
      simp only [runLoopFrom, hstep]
      intro h
      cases h
    · cases hcut : cutoffStep cutoff buffer thresh (stateOfBelow s.below) b.meas with
      | tripped =>
        have hstep : batchStep cutoff buffer thresh s b =
            ({ s with enabled := en, firstBatch := false }, some .trippedStop) := by
          unfold batchStep
          rw [if_neg hstop, hed, hcut]
        simp only [runLoopFrom, hstep]
        intro h
        cases h
      | ok =>
        have hstep : batchStep cutoff buffer thresh s b = (⟨none, en, false⟩, none) := by
          unfold batchStep
          rw [if_neg hstop, hed, hcut]
        simp only [runLoopFrom, hstep]
        exact ih ⟨none, en, false⟩ (fun x hx => hall x (List.mem_cons_of_mem b hx))
      | belowPending t =>
        have hstep : batchStep cutoff buffer thresh s b = (⟨some t, en, false⟩, none) := by
          unfold batchStep
          rw [if_neg hstop, hed, hcut]
        simp only [runLoopFrom, hstep]
        exact ih ⟨some t, en, false⟩ (fun x hx => hall x (List.mem_cons_of_mem b hx))

/-- C4 (amended): A failed setpoint write and a failed or stale
measurement are non-fatal: a run whose batches raise no stop flag, whose
output-enable write (if attempted) succeeds, and whose measurements never
report fresh below-cutoff voltage, always runs to completion, whatever the
per-batch setpoint outcomes and targets; and the exit reason
`enableFailed` — the one communication failure that does end the loop, via
the first-batch `:SOUR:INP ON` write (line 816) — cannot occur when enable
writes succeed. -/
theorem loop_failures_nonfatal (cutoff buffer thresh : ℚ) :
    (∀ bs : List Batch,
      (∀ b ∈ bs, b.stop = false ∧ b.enableOk = true ∧
        ¬ freshBelow cutoff thresh b.meas) →
      (runLoop cutoff buffer thresh bs).1 = .completed) ∧
    (∀ (bs : List Batch) (s : LoopState), (∀ b ∈ bs, b.enableOk = true) →
      (runLoopFrom cutoff buffer thresh s bs).1 ≠ .enableFailed) :=
  ⟨fun bs hall => runLoopFrom_benign cutoff buffer thresh bs initLoopState rfl hall,
    runLoopFrom_no_enableFailed cutoff buffer thresh⟩

/-- Witness for the amended C4: a run whose only batch has a failed setpoint
write still completes. -/
theorem loop_failures_nonfatal_witness :
    (runLoop 3 1 10 [⟨false, 5, false, true, ⟨0, 4, none⟩⟩]).1 = .completed :=
  (loop_failures_nonfatal 3 1 10).1 [⟨false, 5, false, true, ⟨0, 4, none⟩⟩]
    (by intro b hb; fin_cases hb; exact ⟨rfl, rfl, by decide⟩)

/-- C4 (counterexample): The claim as stated is false: a run whose first
batch has a successful non-zero setpoint but a failed `:SOUR:INP ON` write
terminates with `enableFailed` — no stop was requested, no trip occurred,
and the profile was not exhausted. -/
theorem loop_ends_on_enable_failure :
    (runLoop 3 1 10
        [⟨false, 5, true, false, ⟨0, 4, none⟩⟩,
          ⟨false, 0, true, true, ⟨2, 4, none⟩⟩]).1 = .enableFailed ∧
      (∀ b ∈ [(⟨false, 5, true, false, ⟨0, 4, none⟩⟩ : Batch),
          ⟨false, 0, true, true, ⟨2, 4, none⟩⟩], b.stop = false) ∧
      ExitReason.enableFailed ≠ .completed ∧
      ExitReason.enableFailed ≠ .stopped ∧
      ExitReason.enableFailed ≠ .trippedStop := by
  refine ⟨?_, by decide, by decide, by decide, by decide⟩
  norm_num [runLoop, runLoopFrom, batchStep, enableDecision, initLoopState,
    stateOfBelow, cutoffStep]

/-- C3 (failing input): `test_loop` attempts `:SOUR:INP ON` only when
`current_row == 0`: a profile whose first batch interpolates to a zero
target and whose second batch applies a successful non-zero setpoint runs
to completion with the output never enabled, although the second batch was
the first successful non-zero setpoint. -/
theorem outputEnable_only_first_batch :
    ((5 : ℚ) > 1/1000) ∧
      runLoop 3 1 10
        [⟨false, 0, true, true, ⟨0, 4, none⟩⟩,
          ⟨false, 5, true, true, ⟨2, 4, none⟩⟩] =
        (.completed, ⟨none, false, false⟩) := by
  constructor
  · norm_num
  · norm_num [runLoop, runLoopFrom, batchStep, enableDecision, initLoopState,
      stateOfBelow, cutoffStep]

/-! ## Current interpolation (`interpolate_current_window`, lines 268-320)

Floats are modelled as reals (`np.sqrt` forces `Real.sqrt`, so this section
is noncomputable). Per sample (lines 275-282): a negative raw value becomes
`abs(raw) / 3`, a non-negative one becomes `0`, then the value is clamped to
`[min_current, max_current]` via `max(min, min(max, x))`. The five policy
reductions are lines 289-320; `np.mean` is sum/length, `np.average` with
weights is `Σ wᵢxᵢ / Σ wᵢ`, `np.max` is the maximum of a non-empty array. -/

noncomputable section

/-- Lines 275-281: sign convention, cell divisor 3, clamp. -/
def processSample (min_current max_current raw : ℝ) : ℝ :=
  max min_current (min max_current (if raw < 0 then |raw| / 3 else 0))

/-- Lines 274-282: the processed list of a window. -/
def processWindow (min_current max_current : ℝ) (w : List ℝ) : List ℝ :=
  w.map (processSample min_current max_current)

/-- `np.mean`. -/
def npMean (l : List ℝ) : ℝ := l.sum / l.length

/-- `np.max` of a non-empty array (the `[]` case is unreachable in the
dispatch and set to 0). -/
def npMax : List ℝ → ℝ
  | [] => 0
  | a :: t => t.foldl max a

/-- `np.average(l, weights=w) = Σ wᵢ·lᵢ / Σ wᵢ`. -/
def npAverage (l w : List ℝ) : ℝ := (List.zipWith (· * ·) l w).sum / w.sum

/-- The five interpolation policies of the combo box / `method_map`. -/
inductive Policy where
  | average : Policy
  | rms : Policy
  | weightedAvg : Policy
  | peakAware : Policy
  | energyEquiv : Policy
  deriving DecidableEq, Repr

/-- The policy dispatch of lines 289-320, applied to the processed list. -/
def reducePolicy (p : Policy) (currents : List ℝ) : ℝ :=
  match p with
  | .average => npMean currents
  | .rms => Real.sqrt (npMean (currents.map (fun x => x ^ 2)))
  | .weightedAvg =>
    npAverage currents
      (if currents.sum > 0 then currents.map (fun x => x / currents.sum)
        else currents.map (fun _ => 1))
  | .peakAware => 0.7 * npMean currents + 0.3 * npMax currents
  | .energyEquiv =>
    if 0 < currents.length then
      Real.sqrt ((currents.map (fun x => x ^ 2)).sum / currents.length)
    else 0

/-- `interpolate_current_window` (lines 268-320): empty-window guards, then
per-sample processing, then the policy reduction. -/
def interpolate_current_window (min_current max_current : ℝ) (p : Policy)
    (w : List ℝ) : ℝ :=
  if w.length = 0 then 0
  else if processWindow min_current max_current w = [] then 0
  else reducePolicy p (processWindow min_current max_current w)

theorem list_sum_le_length_mul (l : List ℝ) (hi : ℝ) (h : ∀ x ∈ l, x ≤ hi) :
    l.sum ≤ l.length * hi := by
  induction l with
  | nil => simp
  | cons a t ih =>
    have ha := h a (List.mem_cons_self a t)
    have ht := ih (fun x hx => h x (List.mem_cons_of_mem a hx))
    simp only [List.sum_cons, List.length_cons]
    push_cast
    linarith

theorem length_mul_le_list_sum (l : List ℝ) (lo : ℝ) (h : ∀ x ∈ l, lo ≤ x) :
    l.length * lo ≤ l.sum := by
  induction l with
  | nil => simp
  | cons a t ih =>
    have ha := h a (List.mem_cons_self a t)
    have ht := ih (fun x hx => h x (List.mem_cons_of_mem a hx))
    simp only [List.sum_cons, List.length_cons]
    push_cast
    linarith

theorem list_sum_map_div (l : List ℝ) (r : ℝ) :
    (l.map (fun x => x / r)).sum = l.sum / r := by
  induction l with
  | nil => simp
  | cons a t ih => simp [ih, add_div]

/-- Discrete Cauchy-Schwarz for lists: `(Σx)² ≤ n·Σx²`. -/
theorem list_sq_sum_le (l : List ℝ) :
    l.sum ^ 2 ≤ l.length * (l.map (fun x => x ^ 2)).sum := by
  induction l with
  | nil => simp
  | cons a t ih =>
    simp only [List.sum_cons, List.map_cons, List.length_cons]
    push_cast
    rcases Nat.eq_zero_or_pos t.length with h0 | hpos
    · have ht : t = [] := List.length_eq_zero.mp h0
      subst ht
      simp
    · have hn : (0:ℝ) < t.length := by exact_mod_cast hpos
      nlinarith [ih, sq_nonneg ((t.length : ℝ) * a - t.sum), hn.le,
        mul_le_mul_of_nonneg_left ih hn.le]

theorem npMean_bounds (l : List ℝ) (lo hi : ℝ) (hl : l ≠ [])
    (h : ∀ x ∈ l, lo ≤ x ∧ x ≤ hi) : lo ≤ npMean l ∧ npMean l ≤ hi := by
  have hn : (0:ℝ) < l.length := by
    have := List.length_pos.mpr hl
    exact_mod_cast this
  have h1 := length_mul_le_list_sum l lo (fun x hx => (h x hx).1)
  have h2 := list_sum_le_length_mul l hi (fun x hx => (h x hx).2)
  unfold npMean
  constructor
  · rw [le_div_iff₀ hn]
    linarith
  · rw [div_le_iff₀ hn]
    linarith

theorem foldl_max_bounds (lo hi : ℝ) :
    ∀ (t : List ℝ) (a : ℝ), lo ≤ a → a ≤ hi → (∀ x ∈ t, lo ≤ x ∧ x ≤ hi) →
      lo ≤ t.foldl max a ∧ t.foldl max a ≤ hi := by
  intro t
  induction t with
  | nil => intro a h1 h2 _; exact ⟨h1, h2⟩
  | cons b u ih =>
    intro a h1 h2 hall
    obtain ⟨hb1, hb2⟩ := hall b (List.mem_cons_self b u)
    simp only [List.foldl_cons]
    exact ih (max a b) (le_trans h1 (le_max_left a b)) (max_le h2 hb2)
      (fun x hx => hall x (List.mem_cons_of_mem b hx))

theorem npMax_bounds (l : List ℝ) (lo hi : ℝ) (hl : l ≠ [])
    (h : ∀ x ∈ l, lo ≤ x ∧ x ≤ hi) : lo ≤ npMax l ∧ npMax l ≤ hi := by
  cases l with
  | nil => exact absurd rfl hl
  | cons a t =>
    obtain ⟨ha1, ha2⟩ := h a (List.mem_cons_self a t)
    exact foldl_max_bounds lo hi t a ha1 ha2
      (fun x hx => h x (List.mem_cons_of_mem a hx))

theorem zipWith_mul_map_self (l : List ℝ) (f : ℝ → ℝ) :
    List.zipWith (· * ·) l (l.map f) = l.map (fun x => x * f x) := by
  induction l with
  | nil => rfl
  | cons a t ih => simp [ih]

theorem processWindow_mem (min_current max_current : ℝ) (hmin : min_current ≤ 0)
    (hmax : 0 ≤ max_current) (w : List ℝ) :
    ∀ x ∈ processWindow min_current max_current w, 0 ≤ x ∧ x ≤ max_current := by
  intro x hx
  simp only [processWindow, List.mem_map] at hx
  obtain ⟨raw, _, rfl⟩ := hx
  unfold processSample
  have hp : 0 ≤ (if raw < 0 then |raw| / 3 else 0) := by
    by_cases hr : raw < 0
    · rw [if_pos hr]; positivity
    · rw [if_neg hr]
  constructor
  · exact le_max_of_le_right (le_min hmax hp)
  · exact max_le (le_trans hmin hmax) (min_le_left _ _)

/-- Line 299-300 with positive total: `np.average` with weights `x/Σx`
evaluates to `Σx²/Σx`. -/
theorem weightedAvg_eval_pos (l : List ℝ) (hS : 0 < l.sum) :
    reducePolicy .weightedAvg l = (l.map (fun x => x ^ 2)).sum / l.sum := by
  unfold reducePolicy npAverage
  rw [if_pos hS, zipWith_mul_map_self]
  have h1 : l.map (fun x => x * (x / l.sum)) =
      (l.map (fun x => x ^ 2)).map (fun y => y / l.sum) := by
    rw [List.map_map]
    congr 1
    funext x
    simp only [Function.comp]
    ring
  rw [h1, list_sum_map_div, list_sum_map_div, div_self (ne_of_gt hS), div_one]

/-- Line 299-300 with non-positive total: uniform weights, so `np.average`
is the plain mean. -/
theorem weightedAvg_eval_nonpos (l : List ℝ) (hS : ¬ l.sum > 0) :
    reducePolicy .weightedAvg l = npMean l := by
  unfold reducePolicy npAverage npMean
  rw [if_neg hS, zipWith_mul_map_self]
  have h1 : l.map (fun x => x * (1:ℝ)) = l := by
    simp
  have h2 : (l.map (fun _ => (1:ℝ))).sum = (l.length : ℝ) := by
    induction l with
    | nil => simp
    | cons a t ih => simp [ih]; ring
  rw [h1, h2]

theorem map_sq_mem (M : ℝ) (l : List ℝ) (h : ∀ x ∈ l, 0 ≤ x ∧ x ≤ M) :
    ∀ y ∈ l.map (fun x => x ^ 2), 0 ≤ y ∧ y ≤ M ^ 2 := by
  intro y hy
  simp only [List.mem_map] at hy
  obtain ⟨x, hx, rfl⟩ := hy
  obtain ⟨hx0, hxM⟩ := h x hx
  exact ⟨sq_nonneg x, pow_le_pow_left₀ hx0 hxM 2⟩

theorem list_sum_map_mul_left (l : List ℝ) (r : ℝ) :
    (l.map (fun x => r * x)).sum = r * l.sum := by
  induction l with
  | nil => simp
  | cons a t ih =>
    simp only [List.map_cons, List.sum_cons, ih]
    ring

theorem list_sum_sq_le (M : ℝ) (l : List ℝ) (h : ∀ x ∈ l, 0 ≤ x ∧ x ≤ M) :
    (l.map (fun x => x ^ 2)).sum ≤ M * l.sum := by
  have h1 : (l.map (fun x => x ^ 2)).sum ≤ (l.map (fun x => M * x)).sum := by
    refine List.sum_le_sum ?_
    intro x hx
    obtain ⟨hx0, hxM⟩ := h x hx
    calc x ^ 2 = x * x := sq x
    _ ≤ M * x := mul_le_mul_of_nonneg_right hxM hx0
  rw [list_sum_map_mul_left] at h1
  exact h1

/-- Every policy reduction of a non-empty list of values in `[0, M]` lies in
`[0, M]`. -/
theorem reducePolicy_bounds (M : ℝ) (hM : 0 ≤ M) (l : List ℝ) (hl : l ≠ [])
    (h : ∀ x ∈ l, 0 ≤ x ∧ x ≤ M) (p : Policy) :
    0 ≤ reducePolicy p l ∧ reducePolicy p l ≤ M := by
  have hn : (0:ℝ) < l.length := by
    have := List.length_pos.mpr hl
    exact_mod_cast this
  have hmean := npMean_bounds l 0 M hl h
  have hsq : (l.map (fun x => x ^ 2)) ≠ [] := by
    simpa using hl
  have hmeansq := npMean_bounds (l.map (fun x => x ^ 2)) 0 (M ^ 2) hsq (map_sq_mem M l h)
  cases p with
  | average => exact hmean
  | rms =>
    refine ⟨Real.sqrt_nonneg _, ?_⟩
    exact (Real.sqrt_le_left hM).mpr hmeansq.2
  | weightedAvg =>
    by_cases hS : l.sum > 0
    · rw [weightedAvg_eval_pos l hS]
      constructor
      · exact div_nonneg (List.sum_nonneg (fun y hy => (map_sq_mem M l h y hy).1)) hS.le
      · rw [div_le_iff₀ hS]
        calc (l.map (fun x => x ^ 2)).sum ≤ M * l.sum := list_sum_sq_le M l h
        _ = M * l.sum := rfl
    · rw [weightedAvg_eval_nonpos l hS]
      exact hmean
  | peakAware =>
    have hmax := npMax_bounds l 0 M hl h
    unfold reducePolicy
    constructor
    · linarith [hmean.1, hmax.1]
    · linarith [hmean.2, hmax.2]
  | energyEquiv =>
    rw [show reducePolicy .energyEquiv l =
        Real.sqrt ((l.map (fun x => x ^ 2)).sum / l.length) by
      unfold reducePolicy
      rw [if_pos (List.length_pos.mpr hl)]]
    have heq : ((l.map (fun x => x ^ 2)).sum / (l.length : ℝ)) =
        npMean (l.map (fun x => x ^ 2)) := by
      unfold npMean
      rw [List.length_map]
    rw [heq]
    refine ⟨Real.sqrt_nonneg _, ?_⟩
    exact (Real.sqrt_le_left hM).mpr hmeansq.2

/-- C7: For every window (the empty one included) and every policy, the
interpolated current lies in `[min_current, max_current]` (the code runs
with `min_current = 0 ≤ max_current`, captured by the hypotheses); each
sample is processed — negative raw values to magnitude over 3, non-negative
values to 0 — then clamped, before the policy reduction; and an empty window
yields 0. -/
theorem interpolated_current_in_range (min_current max_current : ℝ)
    (hmin : min_current ≤ 0) (hmax : 0 ≤ max_current) :
    (∀ (p : Policy) (w : List ℝ),
      min_current ≤ interpolate_current_window min_current max_current p w ∧
      interpolate_current_window min_current max_current p w ≤ max_current) ∧
    (∀ p : Policy, interpolate_current_window min_current max_current p [] = 0) ∧
    (∀ raw : ℝ,
      (raw < 0 → processSample min_current max_current raw =
        max min_current (min max_current (|raw| / 3))) ∧
      (0 ≤ raw → processSample min_current max_current raw =
        max min_current (min max_current 0))) ∧
    (∀ (p : Policy) (w : List ℝ), w ≠ [] →
      interpolate_current_window min_current max_current p w =
        reducePolicy p (processWindow min_current max_current w)) := by
  have hred : ∀ (p : Policy) (w : List ℝ), w ≠ [] →
      interpolate_current_window min_current max_current p w =
        reducePolicy p (processWindow min_current max_current w) := by
    intro p w hw
    unfold interpolate_current_window
    rw [if_neg (by simpa [List.length_eq_zero] using hw),
      if_neg (by simpa [processWindow, List.map_eq_nil_iff] using hw)]
  refine ⟨fun p w => ?_, fun p => rfl, fun raw => ⟨fun hr => ?_, fun hr => ?_⟩, hred⟩
  · rcases eq_or_ne w [] with rfl | hw
    · constructor
      · simpa [interpolate_current_window] using hmin
      · simpa [interpolate_current_window] using hmax
    · rw [hred p w hw]
      have hpw : processWindow min_current max_current w ≠ [] := by
        simpa [processWindow, List.map_eq_nil_iff] using hw
      obtain ⟨h0, hM⟩ := reducePolicy_bounds max_current hmax
        (processWindow min_current max_current w) hpw
        (processWindow_mem min_current max_current hmin hmax w) p
      exact ⟨le_trans hmin h0, hM⟩
  · unfold processSample
    rw [if_pos hr]
  · unfold processSample
    rw [if_neg (not_lt.mpr hr)]

/-- Witness for C7: with the configured bounds 0 and 40, the Average policy
on the one-sample window `[-600]` stays within `[0, 40]`. -/
theorem interpolated_current_in_range_witness :
    (0:ℝ) ≤ interpolate_current_window 0 40 .average [-600] ∧
      interpolate_current_window 0 40 .average [-600] ≤ 40 :=
  (interpolated_current_in_range 0 40 (by norm_num) (by norm_num)).1 .average [-600]

theorem npMean_le_rms (l : List ℝ) :
    npMean l ≤ Real.sqrt (npMean (l.map (fun x => x ^ 2))) := by
  rcases eq_or_ne l [] with rfl | hl
  · simp [npMean]
  · have hn : (0:ℝ) < l.length := by
      have := List.length_pos.mpr hl
      exact_mod_cast this
    refine Real.le_sqrt_of_sq_le ?_
    unfold npMean
    rw [List.length_map, div_pow, div_le_div_iff₀ (by positivity) hn]
    calc l.sum ^ 2 * (l.length : ℝ)
        ≤ ((l.length : ℝ) * (l.map (fun x => x ^ 2)).sum) * (l.length : ℝ) :=
          mul_le_mul_of_nonneg_right (list_sq_sum_le l) hn.le
      _ = (l.map (fun x => x ^ 2)).sum * ((l.length : ℝ)) ^ 2 := by ring

theorem foldl_max_replicate_self (c : ℝ) :
    ∀ m : ℕ, (List.replicate m c).foldl max c = c := by
  intro m
  induction m with
  | zero => rfl
  | succ k ih =>
    rw [List.replicate_succ, List.foldl_cons, max_self]
    exact ih

theorem npMax_replicate (n : ℕ) (c : ℝ) (hn : n ≠ 0) :
    npMax (List.replicate n c) = c := by
  cases n with
  | zero => exact absurd rfl hn
  | succ m =>
    rw [List.replicate_succ]
    exact foldl_max_replicate_self c m

/-- All five policies are the identity on constant non-negative sample
sets. -/
theorem reducePolicy_const (n : ℕ) (c : ℝ) (hn : n ≠ 0) (hc : 0 ≤ c)
    (p : Policy) : reducePolicy p (List.replicate n c) = c := by
  have hnR : (0:ℝ) < n := by
    exact_mod_cast Nat.pos_of_ne_zero hn
  have hsum : (List.replicate n c).sum = n * c := by
    rw [List.sum_replicate, nsmul_eq_mul]
  have hlen : ((List.replicate n c).length : ℝ) = n := by
    rw [List.length_replicate]
  have hsq : (List.replicate n c).map (fun x => x ^ 2) = List.replicate n (c ^ 2) := by
    rw [List.map_replicate]
  have hmean : npMean (List.replicate n c) = c := by
    unfold npMean
    rw [hsum, hlen, mul_div_cancel_left₀ c (ne_of_gt hnR)]
  have hmeansq : npMean ((List.replicate n c).map (fun x => x ^ 2)) = c ^ 2 := by
    unfold npMean
    rw [hsq, List.sum_replicate, nsmul_eq_mul, List.length_replicate,
      mul_div_cancel_left₀ (c ^ 2) (ne_of_gt hnR)]
  cases p with
  | average => exact hmean
  | rms =>
    show Real.sqrt (npMean ((List.replicate n c).map (fun x => x ^ 2))) = c
    rw [hmeansq, Real.sqrt_sq hc]
  | weightedAvg =>
    rcases eq_or_lt_of_le hc with hc0 | hcpos
    · rw [weightedAvg_eval_nonpos _ (by rw [hsum, ← hc0]; simp), hmean]
    · rw [weightedAvg_eval_pos _ (by rw [hsum]; positivity)]
      rw [hsq, List.sum_replicate, nsmul_eq_mul, hsum]
      have hc0 : c ≠ 0 := ne_of_gt hcpos
      have hn0 : (n:ℝ) ≠ 0 := ne_of_gt hnR
      field_simp
      ring
  | peakAware =>
    show 0.7 * npMean (List.replicate n c) + 0.3 * npMax (List.replicate n c) = c
    rw [hmean, npMax_replicate n c hn]
    ring
  | energyEquiv =>
    show (if 0 < (List.replicate n c).length then
        Real.sqrt (((List.replicate n c).map (fun x => x ^ 2)).sum /
          ((List.replicate n c).length : ℝ))
      else 0) = c
    rw [if_pos (by rw [List.length_replicate]; exact Nat.pos_of_ne_zero hn)]
    rw [hsq, List.sum_replicate, nsmul_eq_mul, List.length_replicate,
      mul_div_cancel_left₀ (c ^ 2) (ne_of_gt hnR), Real.sqrt_sq hc]

theorem processWindow_replicate_const :
    processWindow 0 40 (List.replicate 200 (-600)) = List.replicate 200 40 := by
  unfold processWindow
  rw [List.map_replicate]
  congr 1
  unfold processSample
  norm_num

/-- C8: The RMS policy dominates the Average policy on every window;
all five policies are the identity on a constant non-negative processed
sample set; and in particular the 200-sample window of raw value -600 with
divisor 3 and `max_current = 40` interpolates to 40 under every policy. -/
theorem rms_dominates_average :
    (∀ (min_current max_current : ℝ) (w : List ℝ),
      interpolate_current_window min_current max_current .average w ≤
        interpolate_current_window min_current max_current .rms w) ∧
    (∀ (n : ℕ) (c : ℝ), n ≠ 0 → 0 ≤ c → ∀ p : Policy,
      reducePolicy p (List.replicate n c) = c) ∧
    (∀ p : Policy,
      interpolate_current_window 0 40 p (List.replicate 200 (-600)) = 40) := by
  refine ⟨fun min_current max_current w => ?_, reducePolicy_const, fun p => ?_⟩
  · rcases eq_or_ne w [] with rfl | hw
    · exact le_refl _
    · have hpw : ¬ processWindow min_current max_current w = [] := by
        simpa [processWindow, List.map_eq_nil_iff] using hw
      have hlen : ¬ w.length = 0 := by simpa [List.length_eq_zero] using hw
      unfold interpolate_current_window
      simp only [if_neg hpw, if_neg hlen]
      exact npMean_le_rms (processWindow min_current max_current w)
  · unfold interpolate_current_window
    rw [if_neg (by norm_num), if_neg (by rw [processWindow_replicate_const]; simp),
      processWindow_replicate_const]
    exact reducePolicy_const 200 40 (by norm_num) (by norm_num) p

/-- Witness for C8: the constant-policy identity at 3 samples of value 5
under the Average policy. -/
theorem rms_dominates_average_witness :
    reducePolicy .average (List.replicate 3 5) = 5 :=
  rms_dominates_average.2.1 3 5 (by norm_num) (by norm_num) .average

/-- C9: The EnergyEquivalent policy computes `√(Σx²/n)` on every
non-empty sample list, agrees with the RMS policy on every window, and on
the processed samples `[10, 10, 10]` outputs 10. -/
theorem energyEquiv_is_rms :
    (∀ l : List ℝ, l ≠ [] →
      reducePolicy .energyEquiv l =
        Real.sqrt ((l.map (fun x => x ^ 2)).sum / l.length)) ∧
    (∀ (min_current max_current : ℝ) (w : List ℝ),
      interpolate_current_window min_current max_current .energyEquiv w =
        interpolate_current_window min_current max_current .rms w) ∧
    reducePolicy .energyEquiv [10, 10, 10] = 10 := by
  have hfor : ∀ l : List ℝ, l ≠ [] →
      reducePolicy .energyEquiv l =
        Real.sqrt ((l.map (fun x => x ^ 2)).sum / l.length) := by
    intro l hl
    show (if 0 < l.length then
        Real.sqrt ((l.map (fun x => x ^ 2)).sum / (l.length : ℝ)) else 0) = _
    rw [if_pos (List.length_pos.mpr hl)]
  have hrmseq : ∀ l : List ℝ, l ≠ [] →
      reducePolicy .energyEquiv l = reducePolicy .rms l := by
    intro l hl
    rw [hfor l hl]
    show _ = Real.sqrt (npMean (l.map (fun x => x ^ 2)))
    unfold npMean
    rw [List.length_map]
  refine ⟨hfor, fun min_current max_current w => ?_, ?_⟩
  · rcases eq_or_ne w [] with rfl | hw
    · rfl
    · have hpw : ¬ processWindow min_current max_current w = [] := by
        simpa [processWindow, List.map_eq_nil_iff] using hw
      have hlen : ¬ w.length = 0 := by simpa [List.length_eq_zero] using hw
      unfold interpolate_current_window
      simp only [if_neg hpw, if_neg hlen]
      exact hrmseq _ hpw
  · rw [hfor [10, 10, 10] (by simp)]
    have harg : ((([10, 10, 10] : List ℝ).map (fun x => x ^ 2)).sum /
        (([10, 10, 10] : List ℝ).length : ℝ)) = 100 := by
      norm_num
    rw [harg, show (100:ℝ) = 10 ^ 2 by norm_num, Real.sqrt_sq (by norm_num)]

/-- Witness for C9: on the one-sample list `[1]` the EnergyEquivalent
policy equals `√(Σx²/n)`. -/
theorem energyEquiv_is_rms_witness :
    reducePolicy .energyEquiv [1] =
      Real.sqrt ((([1] : List ℝ).map (fun x => x ^ 2)).sum / ([1] : List ℝ).length) :=
  energyEquiv_is_rms.1 [1] (by simp)

end

end DCLoad
